import Mathlib

/-!
Shallow embedding of the Blackjack table logic of `src/app.py`
(card/hand representation, soft-ace valuation, split/double eligibility,
dealer auto-play, payout classification, round settlement), together with
proofs of the specification's claims about it.

Conventions of the embedding:
- Python ints are modelled as `Nat` for card values and bets (the UI only
  ever produces non-negative bets) and as `Int` for bankrolls.
- `int(bet * 2.5)` in the source truncates a non-negative value toward
  zero, i.e. computes `floor(bet * 2.5)`, which over `Nat` is `5 * bet / 2`.
- `Deck.deal` pops the LAST element of the card list; when fewer than 15
  cards remain it first rebuilds a freshly shuffled shoe.  The random
  shuffle is modelled by an explicit `fresh : List Card` parameter (the
  oracle for the rebuilt shoe); all claims that exclude reshuffles
  hypothesise at least 15 cards before every draw, so `fresh` is inert
  there.
-/

namespace Blackjack

/-- The thirteen ranks (`RANKS` in `src/app.py`). -/
inductive Rank where
  | ace | two | three | four | five | six | seven
  | eight | nine | ten | jack | queen | king
deriving DecidableEq, Repr

/-- The four suits (`SUITS` in `src/app.py`). -/
inductive Suit where
  | spades | hearts | diamonds | clubs
deriving DecidableEq, Repr

/-- A card is a (rank, suit) pair, as in the source's tuples `(r, s)`. -/
abbrev Card := Rank × Suit

/-- `CARD_VALUES` of `src/app.py`: Ace is 11, faces are 10, rest numeric. -/
def cardValue : Rank → Nat
  | .ace => 11
  | .two => 2
  | .three => 3
  | .four => 4
  | .five => 5
  | .six => 6
  | .seven => 7
  | .eight => 8
  | .nine => 9
  | .ten => 10
  | .jack => 10
  | .queen => 10
  | .king => 10

/-- The smallest value a rank can count for: an Ace downgraded to 1,
every other rank its `cardValue`.  Analysis-side helper used to state the
bust characterisation (claim C2). -/
def minRankValue : Rank → Nat
  | .ace => 1
  | r => cardValue r

/-- First summation pass of `Hand.get_value`: every Ace counted as 11. -/
def baseSum : List Card → Nat
  | [] => 0
  | c :: cs => cardValue c.1 + baseSum cs

/-- The number of Aces in a hand (the `aces` counter of `Hand.get_value`). -/
def countAces : List Card → Nat
  | [] => 0
  | c :: cs => (if c.1 = Rank.ace then 1 else 0) + countAces cs

/-- The `while value > 21 and aces` loop of `Hand.get_value`: subtract 10
per downgradable Ace while the running value exceeds 21. -/
def reduceAces : Nat → Nat → Nat
  | v, 0 => v
  | v, a + 1 => if 21 < v then reduceAces (v - 10) a else v

/-- `Hand.get_value` of `src/app.py` on a raw card list. -/
def handValue (cs : List Card) : Nat := reduceAces (baseSum cs) (countAces cs)

/-- The sum of a hand with every Ace counted as 1 (analysis-side). -/
def minSum : List Card → Nat
  | [] => 0
  | c :: cs => minRankValue c.1 + minSum cs

theorem cardValue_eq_minRankValue (r : Rank) :
    cardValue r = minRankValue r + 10 * (if r = Rank.ace then 1 else 0) := by
  cases r <;> rfl

theorem one_le_minRankValue (r : Rank) : 1 ≤ minRankValue r := by
  cases r <;> simp [minRankValue, cardValue]

theorem baseSum_eq (cs : List Card) :
    baseSum cs = minSum cs + 10 * countAces cs := by
  induction cs with
  | nil => rfl
  | cons c cs ih =>
      simp only [baseSum, minSum, countAces, ih, cardValue_eq_minRankValue c.1]
      ring

theorem minSum_append (cs : List Card) (c : Card) :
    minSum (cs ++ [c]) = minSum cs + minRankValue c.1 := by
  induction cs with
  | nil => simp [minSum]
  | cons d cs ih => simp [minSum, ih]; ring

theorem reduceAces_gt_iff (a m : Nat) :
    21 < reduceAces (m + 10 * a) a ↔ 21 < m := by
  induction a generalizing m with
  | zero => simp [reduceAces]
  | succ a ih =>
      by_cases h : 21 < m + 10 * (a + 1)
      · have hsub : m + 10 * (a + 1) - 10 = m + 10 * a := by omega
        simp only [reduceAces, if_pos h, hsub]
        exact ih m
      · simp only [reduceAces, if_neg h]
        omega

theorem le_reduceAces (a m : Nat) : m ≤ reduceAces (m + 10 * a) a := by
  induction a generalizing m with
  | zero => simp [reduceAces]
  | succ a ih =>
      by_cases h : 21 < m + 10 * (a + 1)
      · have hsub : m + 10 * (a + 1) - 10 = m + 10 * a := by omega
        simp only [reduceAces, if_pos h, hsub]
        exact ih m
      · simp only [reduceAces, if_neg h]
        omega

theorem handValue_gt_iff (cs : List Card) : 21 < handValue cs ↔ 21 < minSum cs := by
  rw [handValue, baseSum_eq]
  exact reduceAces_gt_iff (countAces cs) (minSum cs)

theorem minSum_le_handValue (cs : List Card) : minSum cs ≤ handValue cs := by
  rw [handValue, baseSum_eq]
  exact le_reduceAces (countAces cs) (minSum cs)

/-- The `Hand` class of `src/app.py`: an ordered card list, a bet, and the
four state flags. -/
structure Hand where
  cards : List Card
  bet : Nat
  is_standing : Bool
  is_bust : Bool
  is_blackjack : Bool
  doubled : Bool
deriving DecidableEq, Repr

/-- `Hand.__init__`: empty cards, zero bet, all flags down. -/
def Hand.new : Hand :=
  { cards := [], bet := 0, is_standing := false, is_bust := false,
    is_blackjack := false, doubled := false }

/-- `Hand.get_value` bound to a `Hand`. -/
def Hand.get_value (h : Hand) : Nat := handValue h.cards

/-- `Hand.add_card`: append the card, recompute `is_bust` and
`is_blackjack` (`_update_states`), and auto-stand when the value is
exactly 21. -/
def Hand.add_card (h : Hand) (c : Card) : Hand :=
  { h with
    cards := h.cards ++ [c],
    is_bust := decide (21 < handValue (h.cards ++ [c])),
    is_blackjack :=
      decide ((h.cards ++ [c]).length = 2 ∧ handValue (h.cards ++ [c]) = 21),
    is_standing :=
      if handValue (h.cards ++ [c]) = 21 then true else h.is_standing }

/-- `Hand.can_split`: exactly two cards of the same rank. -/
def Hand.can_split (h : Hand) : Bool :=
  match h.cards with
  | [c1, c2] => decide (c1.1 = c2.1)
  | _ => false

/-- `Hand.can_double`: exactly two cards and not already doubled. -/
def Hand.can_double (h : Hand) : Bool :=
  decide (h.cards.length = 2) && !h.doubled

/-- The `playable` test of the action handlers in `src/app.py`
(line 807): neither bust nor standing. -/
def Hand.playable (h : Hand) : Bool := !h.is_bust && !h.is_standing

/-- The flags of a hand agree with its cards, exactly as `_update_states`
computes them.  Holds for `Hand.new` and is (re-)established by every
`add_card`, hence for every hand the game ever finishes with. -/
def WellFormed (h : Hand) : Prop :=
  h.is_bust = decide (21 < h.get_value) ∧
  h.is_blackjack = decide (h.cards.length = 2 ∧ h.get_value = 21)

instance (h : Hand) : Decidable (WellFormed h) := by
  unfold WellFormed; infer_instance

theorem wellFormed_new : WellFormed Hand.new := by
  constructor <;> rfl

theorem wellFormed_add_card (h : Hand) (c : Card) : WellFormed (h.add_card c) := by
  constructor <;> rfl

theorem add_card_cards (h : Hand) (c : Card) :
    (h.add_card c).cards = h.cards ++ [c] := rfl

theorem add_card_bet (h : Hand) (c : Card) : (h.add_card c).bet = h.bet := rfl

/-- The per-hand payout computed by `apply_payouts` in `src/app.py`
(lines 191-224): first-match classification against the settled dealer
hand; `int(bet * 2.5)` is `5 * bet / 2` over `Nat`. -/
def payout (dealer h : Hand) : Nat :=
  if h.is_bust then 0
  else if h.is_blackjack && !dealer.is_blackjack then 5 * h.bet / 2
  else if dealer.is_bust then h.bet * 2
  else if dealer.get_value < h.get_value then h.bet * 2
  else if h.get_value = dealer.get_value then h.bet
  else 0

/-- Result codes of the payout resolver (spec section 4.4 and the
`result` strings of `save_round_to_supabase`). -/
inductive PayResult where
  | bust | blackjack | dealer_bust_win | win | push | lose
deriving DecidableEq, Repr

/-- Transcription of the specification's payout table (section 4.4),
written from the spec's words, over the tuple
(hand flags, dealer flags, hand value, dealer value, bet): rule 1 bust,
rule 2 blackjack vs non-blackjack dealer, rule 3 dealer bust, rule 4
strictly greater, rule 5 equal, rule 6 otherwise.  Used as the
specification side of the refinement proof for claim C1. -/
def classifySpec (pBust pBJ dBust dBJ : Bool) (pv dv bet : Nat) :
    PayResult × Nat :=
  if pBust then (.bust, 0)
  else if pBJ && !dBJ then (.blackjack, 5 * bet / 2)
  else if dBust then (.dealer_bust_win, bet * 2)
  else if dv < pv then (.win, bet * 2)
  else if pv = dv then (.push, bet)
  else (.lose, 0)

/-- C1.  Payout classification is a total function applied in the exact
first-match priority order of the spec (bust, then blackjack versus a
non-blackjack dealer at floor(bet * 2.5), then dealer bust at bet * 2,
then strictly greater at bet * 2, then equal at bet, else 0); and a
player blackjack against a dealer blackjack resolves to a push paying
back exactly the bet. -/
theorem payout_follows_spec_priority (dealer h : Hand) :
    payout dealer h =
      (classifySpec h.is_bust h.is_blackjack dealer.is_bust
        dealer.is_blackjack h.get_value dealer.get_value h.bet).2 ∧
    (WellFormed h → WellFormed dealer → h.is_blackjack = true →
      dealer.is_blackjack = true → payout dealer h = h.bet) := by
  constructor
  · unfold payout classifySpec
    split <;> [rfl; split <;> [rfl; split <;> [rfl; split <;>
      [rfl; split <;> rfl]]]]
  · intro hwf dwf hbj dbj
    obtain ⟨hb, hbjf⟩ := hwf
    obtain ⟨db, dbjf⟩ := dwf
    rw [hbj] at hbjf
    rw [dbj] at dbjf
    have hv : h.get_value = 21 := (of_decide_eq_true hbjf.symm).2
    have dv : dealer.get_value = 21 := (of_decide_eq_true dbjf.symm).2
    have hbf : h.is_bust = false := by
      rw [hb, hv]; simp
    have dbf : dealer.is_bust = false := by
      rw [db, dv]; simp
    unfold payout
    rw [hbf, dbf, hbj, dbj, hv, dv]
    simp

/-- A concrete player natural: (A spades, K spades) with a 100-chip bet. -/
def naturalHand : Hand :=
  { (Hand.new.add_card (Rank.ace, Suit.spades)).add_card
      (Rank.king, Suit.spades) with bet := 100 }

/-- A concrete dealer natural: (A hearts, Q hearts). -/
def dealerNatural : Hand :=
  (Hand.new.add_card (Rank.ace, Suit.hearts)).add_card
    (Rank.queen, Suit.hearts)

/-- Witness for C1: a player natural (A spades, K spades) against a dealer
natural (A hearts, Q hearts) pushes and pays back the 100-chip bet. -/
theorem payout_follows_spec_priority_witness :
    WellFormed naturalHand ∧ WellFormed dealerNatural ∧
      naturalHand.is_blackjack = true ∧ dealerNatural.is_blackjack = true ∧
      payout dealerNatural naturalHand = 100 := by
  refine ⟨by decide, by decide, by decide, by decide, ?_⟩
  exact (payout_follows_spec_priority dealerNatural naturalHand).2
    (by decide) (by decide) (by decide) (by decide)

/-- C2.  `value()` is the base sum with every Ace as 11, reduced by 10
while above 21 and downgradable Aces remain; it exceeds 21 exactly when
the sum with every Ace counted as 1 exceeds 21, and the `is_bust` flag
recomputed by `add_card` is set exactly under that same condition. -/
theorem value_and_bust_characterisation (cs : List Card) (h : Hand) (c : Card) :
    handValue cs = reduceAces (baseSum cs) (countAces cs) ∧
    (21 < handValue cs ↔ 21 < minSum cs) ∧
    ((h.add_card c).is_bust = true ↔ 21 < minSum (h.cards ++ [c])) := by
  refine ⟨rfl, handValue_gt_iff cs, ?_⟩
  show decide (21 < handValue (h.cards ++ [c])) = true ↔ _
  rw [decide_eq_true_iff]
  exact handValue_gt_iff (h.cards ++ [c])

/-- The concrete cards (A spades, A hearts, K spades, 9 clubs): a soft
hand worth 21 once one Ace downgrades. -/
def softCards : List Card :=
  [(Rank.ace, Suit.spades), (Rank.ace, Suit.hearts),
   (Rank.king, Suit.spades), (Rank.nine, Suit.clubs)]

/-- A concrete hand (A, K, 9) about to receive a busting card. -/
def stiffHand : Hand :=
  ((Hand.new.add_card (Rank.ace, Suit.spades)).add_card
    (Rank.king, Suit.hearts)).add_card (Rank.nine, Suit.hearts)

/-- Witness for C2 on concrete hands: (A, A, K, 9) values to 21 and is not
bust (its all-Aces-as-1 sum is 21), while adding a 9 to (A, K, 9) busts
(the all-Aces-as-1 sum 29 exceeds 21). -/
theorem value_and_bust_characterisation_witness :
    (¬ 21 < handValue softCards) ∧ (¬ 21 < minSum softCards) ∧
      ((stiffHand.add_card (Rank.nine, Suit.diamonds)).is_bust = true) ∧
      21 < minSum (stiffHand.cards ++ [(Rank.nine, Suit.diamonds)]) := by
  refine ⟨?_, by decide, ?_, by decide⟩
  · intro hgt
    have := (value_and_bust_characterisation softCards
      Hand.new (Rank.ace, Suit.spades)).2.1.mp hgt
    exact absurd this (by decide)
  · exact (value_and_bust_characterisation [] stiffHand
      (Rank.nine, Suit.diamonds)).2.2.mpr (by decide)

/-- Placeholder card used to totalise `List.getLastD`; every claim that
draws cards either hypothesises a long enough shoe or is insensitive to
the card's identity. -/
def defaultCard : Card := (Rank.two, Suit.spades)

/-- `Deck.deal` of `src/app.py`: if fewer than 15 cards remain the shoe is
rebuilt first (the freshly shuffled shoe is the `fresh` oracle), then the
LAST card of the list is popped and returned. -/
def dealCard (fresh deck : List Card) : Card × List Card :=
  if deck.length < 15 then (fresh.getLastD defaultCard, fresh.dropLast)
  else (deck.getLastD defaultCard, deck.dropLast)

/-- The k-th card produced by successive `Deck.deal` calls starting from
`deck` (with rebuild oracle `fresh`). -/
def drawSeq (fresh deck : List Card) : Nat → Card
  | 0 => (dealCard fresh deck).1
  | k + 1 => drawSeq fresh (dealCard fresh deck).2 k

/-- The shoe left after n successive `Deck.deal` calls. -/
def deckAfter (fresh deck : List Card) : Nat → List Card
  | 0 => deck
  | n + 1 => deckAfter fresh (dealCard fresh deck).2 n

theorem deckAfter_succ_comm (fresh deck : List Card) (n : Nat) :
    deckAfter fresh deck (n + 1) =
      (dealCard fresh (deckAfter fresh deck n)).2 := by
  induction n generalizing deck with
  | zero => rfl
  | succ n ih => exact ih (dealCard fresh deck).2

theorem drawSeq_eq_deal_deckAfter (fresh deck : List Card) (n : Nat) :
    drawSeq fresh deck n = (dealCard fresh (deckAfter fresh deck n)).1 := by
  induction n generalizing deck with
  | zero => rfl
  | succ n ih => exact ih (dealCard fresh deck).2

theorem drawSeq_deckAfter (fresh deck : List Card) (m k : Nat) :
    drawSeq fresh (deckAfter fresh deck m) k = drawSeq fresh deck (m + k) := by
  induction m generalizing deck with
  | zero => rw [Nat.zero_add]; rfl
  | succ m ih =>
      have : m + 1 + k = m + k + 1 := by omega
      rw [this]
      exact ih (dealCard fresh deck).2

theorem deckAfter_add (fresh deck : List Card) (m k : Nat) :
    deckAfter fresh (deckAfter fresh deck m) k = deckAfter fresh deck (m + k) := by
  induction m generalizing deck with
  | zero => rw [Nat.zero_add]; rfl
  | succ m ih =>
      have : m + 1 + k = m + k + 1 := by omega
      rw [this]
      exact ih (dealCard fresh deck).2

theorem dealCard_no_reshuffle (fresh deck : List Card) (hlen : 15 ≤ deck.length) :
    dealCard fresh deck = (deck.getLastD defaultCard, deck.dropLast) := by
  rw [dealCard, if_neg (by omega)]

theorem deckAfter_length (fresh deck : List Card) (n : Nat)
    (hlen : 14 + n ≤ deck.length) :
    (deckAfter fresh deck n).length = deck.length - n := by
  induction n generalizing deck with
  | zero => simp [deckAfter]
  | succ n ih =>
      show (deckAfter fresh (dealCard fresh deck).2 n).length = _
      rw [dealCard_no_reshuffle fresh deck (by omega)]
      rw [ih deck.dropLast (by rw [List.length_dropLast]; omega)]
      rw [List.length_dropLast]
      omega

/-- `Hand.add_card` folded over a list of cards, in order. -/
def addCards (h : Hand) (cs : List Card) : Hand := cs.foldl Hand.add_card h

theorem addCards_nil (h : Hand) : addCards h [] = h := rfl

theorem addCards_cons (h : Hand) (c : Card) (cs : List Card) :
    addCards h (c :: cs) = addCards (h.add_card c) cs := rfl

/-- The list of the first n cards `Deck.deal` produces from `deck`. -/
def drawList (fresh deck : List Card) : Nat → List Card
  | 0 => []
  | n + 1 => (dealCard fresh deck).1 :: drawList fresh (dealCard fresh deck).2 n

theorem minSum_le_get_value (h : Hand) : minSum h.cards ≤ h.get_value :=
  minSum_le_handValue h.cards

/-- The dealer auto-play loop of the Reveal Dealer handler in
`src/app.py` (lines 979-990): `while dealer_hand.get_value() < 17:
dealer_hand.add_card(deck.deal())`.  Total: each drawn card raises the
hand's all-Aces-as-1 sum by at least 1, and the value is at least that
sum, so at most 17 draws can keep it under 17. -/
def dealerLoop (fresh : List Card) (dealer : Hand) (deck : List Card) :
    Hand × List Card :=
  if dealer.get_value < 17 then
    dealerLoop fresh (dealer.add_card (dealCard fresh deck).1)
      (dealCard fresh deck).2
  else (dealer, deck)
termination_by 17 - minSum dealer.cards
decreasing_by
  have h1 := minSum_le_get_value dealer
  have h2 : minSum (dealer.cards ++ [(dealCard fresh deck).1]) =
      minSum dealer.cards + minRankValue (dealCard fresh deck).1.1 :=
    minSum_append dealer.cards (dealCard fresh deck).1
  have h3 := one_le_minRankValue (dealCard fresh deck).1.1
  simp only [Hand.add_card]
  omega

/-- C3.  Dealer auto-play terminates (it is a total function of the
starting hand and the shoe, hence also deterministic for a fixed shoe
order), and its result appends exactly the first n successively dealt
cards for the unique n such that every proper prefix leaves the value
strictly below 17 while the full n cards bring it to at least 17. -/
theorem dealerLoop_characterisation (fresh deck : List Card) (dealer : Hand) :
    ∃ n : Nat,
      dealerLoop fresh dealer deck =
        (addCards dealer (drawList fresh deck n), deckAfter fresh deck n) ∧
      17 ≤ (addCards dealer (drawList fresh deck n)).get_value ∧
      ∀ m, m < n → (addCards dealer (drawList fresh deck m)).get_value < 17 := by
  generalize hk : 17 - minSum dealer.cards = k
  induction k using Nat.strong_induction_on generalizing dealer deck with
  | _ k ih =>
      by_cases hv : dealer.get_value < 17
      · have hk' : 17 - minSum ((dealer.add_card (dealCard fresh deck).1).cards)
            < k := by
          have h1 := minSum_le_get_value dealer
          have h2 := minSum_append dealer.cards (dealCard fresh deck).1
          have h3 := one_le_minRankValue (dealCard fresh deck).1.1
          simp only [add_card_cards]
          omega
        obtain ⟨n, heq, hge, hlt⟩ := ih _ hk'
          (dealCard fresh deck).2 (dealer.add_card (dealCard fresh deck).1) rfl
        refine ⟨n + 1, ?_, ?_, ?_⟩
        · rw [dealerLoop, if_pos hv, heq]
          rfl
        · exact hge
        · intro m hm
          cases m with
          | zero => simpa [addCards_nil, drawList] using hv
          | succ m => exact hlt m (by omega)
      · refine ⟨0, ?_, by simpa [addCards_nil, drawList] using hv, by omega⟩
        rw [dealerLoop, if_neg hv]
        rfl

/-- A concrete dealer hand showing (K, 6): value 16, must draw. -/
def dealerSixteen : Hand :=
  (Hand.new.add_card (Rank.king, Suit.spades)).add_card (Rank.six, Suit.hearts)

/-- Witness for C3: instantiating the characterisation on a concrete
16-valued dealer hand and a concrete 16-card shoe. -/
theorem dealerLoop_characterisation_witness :
    ∃ n : Nat,
      dealerLoop (List.replicate 16 defaultCard) dealerSixteen
          (List.replicate 16 ((Rank.five, Suit.clubs) : Card)) =
        (addCards dealerSixteen
          (drawList (List.replicate 16 defaultCard)
            (List.replicate 16 ((Rank.five, Suit.clubs) : Card)) n),
         deckAfter (List.replicate 16 defaultCard)
          (List.replicate 16 ((Rank.five, Suit.clubs) : Card)) n) ∧
      17 ≤ (addCards dealerSixteen
        (drawList (List.replicate 16 defaultCard)
          (List.replicate 16 ((Rank.five, Suit.clubs) : Card)) n)).get_value ∧
      ∀ m, m < n →
        (addCards dealerSixteen
          (drawList (List.replicate 16 defaultCard)
            (List.replicate 16 ((Rank.five, Suit.clubs) : Card)) m)).get_value
          < 17 :=
  dealerLoop_characterisation (List.replicate 16 defaultCard)
    (List.replicate 16 ((Rank.five, Suit.clubs) : Card)) dealerSixteen

/-- The Double action handler of `src/app.py` (lines 885-905): guarded by
playable, `can_double`, and bankroll at least the current bet; deducts the
(original) bet from the bankroll, doubles the hand's bet, marks it
doubled, draws exactly one card, and forces standing.  A guarded-out call
is a no-op (the button is disabled). -/
def doubleAction (fresh : List Card) (bankroll : Int) (h : Hand)
    (deck : List Card) : Int × Hand × List Card :=
  if h.playable && h.can_double && decide ((h.bet : Int) ≤ bankroll) then
    (bankroll - (h.bet : Int),
     { ({ h with bet := h.bet * 2, doubled := true }).add_card
         (dealCard fresh deck).1 with is_standing := true },
     (dealCard fresh deck).2)
  else (bankroll, h, deck)

/-- C4.  When the current hand is playable with exactly 2 cards, not yet
doubled, and the bankroll covers the bet, doubling deducts the bet again,
doubles the hand's bet, draws exactly one card (leaving 3 cards), and
sets standing unconditionally — even if the drawn card busts the hand. -/
theorem double_action_effect (fresh deck : List Card) (bankroll : Int)
    (h : Hand) (hp : h.playable = true) (hc : h.cards.length = 2)
    (hd : h.doubled = false) (hb : (h.bet : Int) ≤ bankroll) :
    (doubleAction fresh bankroll h deck).1 = bankroll - (h.bet : Int) ∧
    (doubleAction fresh bankroll h deck).2.1.bet = h.bet * 2 ∧
    (doubleAction fresh bankroll h deck).2.1.cards.length = 3 ∧
    (doubleAction fresh bankroll h deck).2.1.is_standing = true ∧
    (doubleAction fresh bankroll h deck).2.1.doubled = true ∧
    (doubleAction fresh bankroll h deck).2.1.cards =
      h.cards ++ [(dealCard fresh deck).1] ∧
    (doubleAction fresh bankroll h deck).2.2 = (dealCard fresh deck).2 := by
  have hguard : (h.playable && h.can_double &&
      decide ((h.bet : Int) ≤ bankroll)) = true := by
    rw [hp, Hand.can_double, hd]
    simp [hc, hb]
  rw [doubleAction, if_pos hguard]
  refine ⟨rfl, rfl, ?_, rfl, rfl, rfl, rfl⟩
  simp [Hand.add_card, hc]

/-- A concrete pair of fives with a 100-chip bet, as in the spec's
doubling scenario (bankroll 1000, bet 100 already deducted). -/
def pairOfFives : Hand :=
  { (Hand.new.add_card (Rank.five, Suit.spades)).add_card
      (Rank.five, Suit.hearts) with bet := 100 }

/-- A 16-card shoe whose top (last) card is a ten  — the double draw that
brings the pair of fives to 20. -/
def tenTopDeck : List Card := List.replicate 16 ((Rank.ten, Suit.spades) : Card)

/-- A concrete dealer hand (K, 9) worth 19. -/
def dealerNineteen : Hand :=
  (Hand.new.add_card (Rank.king, Suit.clubs)).add_card (Rank.nine, Suit.clubs)

/-- Witness for C4, following the spec's scenario: bankroll 900 after the
100 bet, doubling leaves 800 with bet 200 and a 3-card 20; against a
dealer 19 the payout is 400, for a final bankroll of 1200. -/
theorem double_action_effect_witness :
    pairOfFives.playable = true ∧ pairOfFives.cards.length = 2 ∧
    pairOfFives.doubled = false ∧ ((pairOfFives.bet : Int) ≤ 900) ∧
    (doubleAction tenTopDeck 900 pairOfFives tenTopDeck).1 = 800 ∧
    (doubleAction tenTopDeck 900 pairOfFives tenTopDeck).2.1.bet = 200 ∧
    (doubleAction tenTopDeck 900 pairOfFives tenTopDeck).2.1.cards.length = 3 ∧
    (doubleAction tenTopDeck 900 pairOfFives tenTopDeck).2.1.is_standing
      = true ∧
    (doubleAction tenTopDeck 900 pairOfFives tenTopDeck).2.1.get_value = 20 ∧
    dealerNineteen.get_value = 19 ∧
    payout dealerNineteen
      (doubleAction tenTopDeck 900 pairOfFives tenTopDeck).2.1 = 400 ∧
    (800 : Int) + 400 = 1200 := by
  have h := double_action_effect tenTopDeck tenTopDeck 900 pairOfFives
    (by decide) (by decide) (by decide) (by decide)
  exact ⟨by decide, by decide, by decide, by decide, h.1, h.2.1,
    h.2.2.1, h.2.2.2.1, by decide, by decide, by decide, by decide⟩

/-- Python's `list.insert(i, x)`: insert before position i, clamping to
an append when i is past the end. -/
def insertAt {α : Type} : List α → Nat → α → List α
  | l, 0, x => x :: l
  | [], _ + 1, x => [x]
  | a :: l, n + 1, x => a :: insertAt l n x

theorem insertAt_length {α : Type} (l : List α) (n : Nat) (x : α) :
    (insertAt l n x).length = l.length + 1 := by
  induction l generalizing n with
  | nil => cases n <;> rfl
  | cons a l ih =>
      cases n with
      | zero => rfl
      | succ n => simp [insertAt, ih]

theorem insertAt_get_lt {α : Type} (l : List α) (n : Nat) (x : α) (m : Nat)
    (hm : m < n) (hn : n ≤ l.length) :
    (insertAt l n x).get? m = l.get? m := by
  induction l generalizing n m with
  | nil => simp only [List.length_nil] at hn; omega
  | cons a l ih =>
      cases n with
      | zero => omega
      | succ n =>
          cases m with
          | zero => rfl
          | succ m =>
              simp only [insertAt, List.get?]
              exact ih n m (by omega) (by simpa using hn)

theorem insertAt_get_self {α : Type} (l : List α) (n : Nat) (x : α)
    (hn : n ≤ l.length) :
    (insertAt l n x).get? n = some x := by
  induction l generalizing n with
  | nil =>
      cases n with
      | zero => rfl
      | succ n => simp only [List.length_nil] at hn; omega
  | cons a l ih =>
      cases n with
      | zero => rfl
      | succ n => exact ih n (by simpa using hn)

theorem set_get_self {α : Type} (l : List α) (i : Nat) (a : α)
    (hi : i < l.length) : (l.set i a).get? i = some a := by
  induction l generalizing i with
  | nil => simp at hi
  | cons b l ih =>
      cases i with
      | zero => rfl
      | succ i => exact ih i (by simpa using hi)

theorem can_split_shape (h : Hand) (hs : h.can_split = true) :
    ∃ c1 c2, h.cards = [c1, c2] ∧ c1.1 = c2.1 := by
  unfold Hand.can_split at hs
  match hcs : h.cards with
  | [] => rw [hcs] at hs; exact absurd hs (by simp)
  | [c] => rw [hcs] at hs; exact absurd hs (by simp)
  | c1 :: c2 :: c3 :: r => rw [hcs] at hs; exact absurd hs (by simp)
  | [c1, c2] =>
      rw [hcs] at hs
      exact ⟨c1, c2, rfl, of_decide_eq_true hs⟩

/-- The current hand after the split step of `src/app.py` (lines
920-926): its second (last) card popped, then one fresh card dealt. -/
def splitCurrent (fresh deck : List Card) (cur : Hand) : Hand :=
  ({ cur with cards := cur.cards.dropLast }).add_card (dealCard fresh deck).1

/-- The new hand the split creates (lines 922-927): a fresh hand carrying
the popped second card and an equal bet, then one card dealt to it from
the shoe left after the current hand's draw. -/
def splitNew (fresh deck : List Card) (cur : Hand) : Hand :=
  ({ Hand.new with
      bet := cur.bet,
      cards := [cur.cards.getLastD defaultCard] }).add_card
    (dealCard fresh (dealCard fresh deck).2).1

/-- The Split action handler of `src/app.py` (lines 906-930): guarded by
playable, `can_split`, bankroll at least the bet, and fewer than 4 hands;
pops the second card of the current hand into a new hand with an equal
bet, deals one card to the current hand and one to the new hand, deducts
the new bet from the bankroll, and inserts the new hand right after the
current one.  A guarded-out call is a no-op (the button is disabled). -/
def splitAction (fresh : List Card) (bankroll : Int) (hands : List Hand)
    (idx : Nat) (deck : List Card) : Int × List Hand × List Card :=
  match hands.get? idx with
  | none => (bankroll, hands, deck)
  | some cur =>
      if cur.playable && cur.can_split &&
          decide ((cur.bet : Int) ≤ bankroll) && decide (hands.length < 4) then
        (bankroll - (cur.bet : Int),
         insertAt (hands.set idx (splitCurrent fresh deck cur)) (idx + 1)
           (splitNew fresh deck cur),
         (dealCard fresh (dealCard fresh deck).2).2)
      else (bankroll, hands, deck)

theorem splitAction_unfold (fresh deck : List Card) (bankroll : Int)
    (hands : List Hand) (idx : Nat) (cur : Hand)
    (hget : hands.get? idx = some cur) (hp : cur.playable = true)
    (hs : cur.can_split = true) (hb : (cur.bet : Int) ≤ bankroll)
    (hn : hands.length < 4) :
    splitAction fresh bankroll hands idx deck =
      (bankroll - (cur.bet : Int),
       insertAt (hands.set idx (splitCurrent fresh deck cur)) (idx + 1)
         (splitNew fresh deck cur),
       (dealCard fresh (dealCard fresh deck).2).2) := by
  have hguard : (cur.playable && cur.can_split &&
      decide ((cur.bet : Int) ≤ bankroll) && decide (hands.length < 4))
        = true := by
    rw [hp, hs]
    simp [hb, hn]
  unfold splitAction
  rw [hget]
  dsimp only
  rw [if_pos hguard]

/-- C5.  Under the split guard (playable 2-card equal-rank hand, bankroll
covering the bet, fewer than 4 hands), splitting deducts a matching bet,
inserts the new hand immediately after the current one carrying the
removed second card and an equal bet, deals one fresh card to each of the
two resulting hands (each ends with exactly 2 cards), and raises the hand
count by exactly one, to at most 4. -/
theorem split_action_effect (fresh deck : List Card) (bankroll : Int)
    (hands : List Hand) (idx : Nat) (cur : Hand)
    (hget : hands.get? idx = some cur) (hp : cur.playable = true)
    (hs : cur.can_split = true) (hb : (cur.bet : Int) ≤ bankroll)
    (hn : hands.length < 4) :
    (splitAction fresh bankroll hands idx deck).1 =
      bankroll - (cur.bet : Int) ∧
    (splitAction fresh bankroll hands idx deck).2.1.length =
      hands.length + 1 ∧
    (splitAction fresh bankroll hands idx deck).2.1.length ≤ 4 ∧
    ∃ h1 h2,
      (splitAction fresh bankroll hands idx deck).2.1.get? idx = some h1 ∧
      (splitAction fresh bankroll hands idx deck).2.1.get? (idx + 1)
        = some h2 ∧
      h1.cards = cur.cards.dropLast ++ [(dealCard fresh deck).1] ∧
      h2.cards = [cur.cards.getLastD defaultCard,
        (dealCard fresh (dealCard fresh deck).2).1] ∧
      h1.cards.length = 2 ∧ h2.cards.length = 2 ∧
      h1.bet = cur.bet ∧ h2.bet = cur.bet ∧
      (splitAction fresh bankroll hands idx deck).2.2 =
        (dealCard fresh (dealCard fresh deck).2).2 := by
  have hidx : idx < hands.length := List.get?_eq_some.mp hget |>.1
  obtain ⟨c1, c2, hcards, -⟩ := can_split_shape cur hs
  rw [splitAction_unfold fresh deck bankroll hands idx cur hget hp hs hb hn]
  have hset : idx + 1 ≤
      (hands.set idx (splitCurrent fresh deck cur)).length := by
    rw [List.length_set]; omega
  refine ⟨rfl, ?_, ?_, ?_⟩
  · rw [insertAt_length, List.length_set]
  · rw [insertAt_length, List.length_set]; omega
  · refine ⟨splitCurrent fresh deck cur, splitNew fresh deck cur,
      ?_, ?_, ?_, ?_, ?_, ?_, ?_, ?_, ?_⟩
    · rw [insertAt_get_lt _ _ _ idx (by omega) hset]
      exact set_get_self _ _ _ hidx
    · exact insertAt_get_self _ _ _ hset
    · rfl
    · rfl
    · rw [splitCurrent, add_card_cards]
      simp [hcards]
    · rfl
    · rfl
    · rfl
    · rfl

/-- A concrete pair of eights with a 100-chip bet, the spec's split
scenario. -/
def pairOfEights : Hand :=
  { (Hand.new.add_card (Rank.eight, Suit.spades)).add_card
      (Rank.eight, Suit.hearts) with bet := 100 }

/-- A 16-card shoe of threes used by the split witnesses. -/
def threesDeck : List Card := List.replicate 16 ((Rank.three, Suit.clubs) : Card)

/-- Witness for C5: splitting the concrete pair of eights from a one-hand
list with bankroll 900. -/
theorem split_action_effect_witness :
    [pairOfEights].get? 0 = some pairOfEights ∧
    pairOfEights.playable = true ∧ pairOfEights.can_split = true ∧
    ((pairOfEights.bet : Int) ≤ 900) ∧ [pairOfEights].length < 4 ∧
    (splitAction threesDeck 900 [pairOfEights] 0 threesDeck).1 = 800 ∧
    (splitAction threesDeck 900 [pairOfEights] 0 threesDeck).2.1.length
      = 2 ∧
    (∃ h1 h2,
      (splitAction threesDeck 900 [pairOfEights] 0 threesDeck).2.1.get? 0
        = some h1 ∧
      (splitAction threesDeck 900 [pairOfEights] 0 threesDeck).2.1.get? 1
        = some h2 ∧
      h1.cards = pairOfEights.cards.dropLast ++
        [(dealCard threesDeck threesDeck).1] ∧
      h2.cards = [pairOfEights.cards.getLastD defaultCard,
        (dealCard threesDeck (dealCard threesDeck threesDeck).2).1] ∧
      h1.cards.length = 2 ∧ h2.cards.length = 2 ∧
      h1.bet = 100 ∧ h2.bet = 100 ∧
      (splitAction threesDeck 900 [pairOfEights] 0 threesDeck).2.2 =
        (dealCard threesDeck (dealCard threesDeck threesDeck).2).2) := by
  have h := split_action_effect threesDeck threesDeck 900 [pairOfEights] 0
    pairOfEights (by decide) (by decide) (by decide) (by decide) (by decide)
  exact ⟨by decide, by decide, by decide, by decide, by decide,
    h.1, h.2.1, h.2.2.2⟩

/-- The operations that ever touch a given hand's card list in
`src/app.py`: `add_card` (dealing, hit, double, dealer draws) and the
split step on the current hand (pop the second card, then `add_card` a
fresh one), which the handler only performs when `can_split` holds. -/
inductive HandOp where
  | draw (c : Card)
  | splitDraw (c : Card)
deriving DecidableEq, Repr

/-- Apply one hand operation; a split on a hand that cannot split is
rejected (no-op), as the disabled button enforces. -/
def applyOp (h : Hand) : HandOp → Hand
  | .draw c => h.add_card c
  | .splitDraw c =>
      if h.can_split then ({ h with cards := h.cards.dropLast }).add_card c
      else h

/-- Apply a sequence of hand operations, oldest first. -/
def applyOps (h : Hand) (ops : List HandOp) : Hand := ops.foldl applyOp h

theorem can_split_eq_false_of_three (h : Hand) (h3 : 3 ≤ h.cards.length) :
    h.can_split = false := by
  unfold Hand.can_split
  match hcs : h.cards with
  | [] => rfl
  | [c] => rfl
  | [c1, c2] => rw [hcs] at h3; simp at h3
  | c1 :: c2 :: c3 :: r => rfl

theorem applyOp_three_le (h : Hand) (op : HandOp) (h3 : 3 ≤ h.cards.length) :
    3 ≤ (applyOp h op).cards.length := by
  cases op with
  | draw c =>
      rw [applyOp, add_card_cards, List.length_append]
      omega
  | splitDraw c =>
      rw [applyOp, can_split_eq_false_of_three h h3]
      simpa using h3

theorem applyOps_three_le (h : Hand) (ops : List HandOp)
    (h3 : 3 ≤ h.cards.length) : 3 ≤ (applyOps h ops).cards.length := by
  induction ops generalizing h with
  | nil => exact h3
  | cons op ops ih => exact ih (applyOp h op) (applyOp_three_le h op h3)

/-- C8.  `can_split` holds exactly on two-card hands of equal rank, and
once a hand has a third card it can never split again: neither drawing
(which only grows the hand) nor a split (which is rejected unless the
hand has exactly two cards) can bring the card count back to two. -/
theorem can_split_iff_and_permanent (h : Hand) (ops : List HandOp) :
    (h.can_split = true ↔ ∃ c1 c2, h.cards = [c1, c2] ∧ c1.1 = c2.1) ∧
    (3 ≤ h.cards.length → (applyOps h ops).can_split = false) := by
  constructor
  · constructor
    · exact can_split_shape h
    · rintro ⟨c1, c2, hcs, hr⟩
      unfold Hand.can_split
      rw [hcs]
      simpa using hr
  · intro h3
    exact can_split_eq_false_of_three _ (applyOps_three_le h ops h3)

/-- A concrete three-card hand (7, 7, 7). -/
def threeSevens : Hand :=
  ((Hand.new.add_card (Rank.seven, Suit.spades)).add_card
    (Rank.seven, Suit.hearts)).add_card (Rank.seven, Suit.clubs)

/-- Witness for C8: the pair of eights can split, and a three-card hand
can no longer split after a further draw and an (attempted) split. -/
theorem can_split_iff_and_permanent_witness :
    pairOfEights.can_split = true ∧ (3 ≤ threeSevens.cards.length) ∧
    (applyOps threeSevens
      [HandOp.draw (Rank.two, Suit.clubs),
       HandOp.splitDraw (Rank.two, Suit.hearts)]).can_split = false := by
  refine ⟨?_, by decide, ?_⟩
  · exact (can_split_iff_and_permanent pairOfEights []).1.mpr
      ⟨(Rank.eight, Suit.spades), (Rank.eight, Suit.hearts), rfl, rfl⟩
  · exact (can_split_iff_and_permanent threeSevens
      [HandOp.draw (Rank.two, Suit.clubs),
       HandOp.splitDraw (Rank.two, Suit.hearts)]).2 (by decide)

/-- C10.  Any hand produced by a split that ends on two cards worth 21 —
for example a split Ace drawing a ten-value card — carries the
`is_blackjack` flag (since `_update_states` only checks card count and
value, not whether the 21 was a natural), and payout resolution then pays
it floor(bet * 2.5) whenever the dealer does not hold blackjack. -/
theorem split_twentyone_is_blackjack (fresh deck : List Card)
    (bankroll : Int) (hands : List Hand) (idx : Nat) (cur : Hand)
    (hget : hands.get? idx = some cur) (hp : cur.playable = true)
    (hs : cur.can_split = true) (hb : (cur.bet : Int) ≤ bankroll)
    (hn : hands.length < 4) (h : Hand)
    (hmem : (splitAction fresh bankroll hands idx deck).2.1.get? idx = some h ∨
      (splitAction fresh bankroll hands idx deck).2.1.get? (idx + 1) = some h)
    (h21 : h.get_value = 21) :
    h.is_blackjack = true ∧
    ∀ dealer : Hand, dealer.is_blackjack = false →
      payout dealer h = 5 * h.bet / 2 := by
  have hidx : idx < hands.length := List.get?_eq_some.mp hget |>.1
  obtain ⟨c1, c2, hcards, -⟩ := can_split_shape cur hs
  have hset : idx + 1 ≤
      (hands.set idx (splitCurrent fresh deck cur)).length := by
    rw [List.length_set]; omega
  rw [splitAction_unfold fresh deck bankroll hands idx cur hget hp hs hb hn]
    at hmem
  have hform : h.cards.length = 2 ∧ (∃ h0 c, h = Hand.add_card h0 c) := by
    rcases hmem with hm | hm
    · rw [insertAt_get_lt _ _ _ idx (by omega) hset,
        set_get_self _ _ _ hidx] at hm
      obtain rfl : splitCurrent fresh deck cur = h := Option.some.inj hm
      refine ⟨?_, ⟨_, _, rfl⟩⟩
      rw [splitCurrent, add_card_cards]
      simp [hcards]
    · rw [insertAt_get_self _ _ _ hset] at hm
      obtain rfl : splitNew fresh deck cur = h := Option.some.inj hm
      exact ⟨rfl, ⟨_, _, rfl⟩⟩
  obtain ⟨hlen, h0, c, rfl⟩ := hform
  obtain ⟨hbust, hbj⟩ := wellFormed_add_card h0 c
  have hbj' : (Hand.add_card h0 c).is_blackjack = true := by
    rw [hbj, decide_eq_true_iff]
    exact ⟨hlen, h21⟩
  have hbust' : (Hand.add_card h0 c).is_bust = false := by
    rw [hbust, h21]
    simp
  refine ⟨hbj', ?_⟩
  intro dealer hdbj
  rw [payout, hbust', hbj', hdbj]
  simp

/-- A one-element hand list holding a split-ready pair of Aces betting
100. -/
def pairOfAces : Hand :=
  { (Hand.new.add_card (Rank.ace, Suit.spades)).add_card
      (Rank.ace, Suit.hearts) with bet := 100 }

/-- A 16-card shoe whose top two cards are kings, so both split hands
draw a ten-value card. -/
def kingsTopDeck : List Card :=
  List.replicate 14 ((Rank.two, Suit.diamonds) : Card) ++
    [(Rank.king, Suit.hearts), (Rank.king, Suit.spades)]

/-- The first hand resulting from splitting the pair of Aces against the
kings-topped shoe: (A spades, K spades), a post-split 21. -/
def splitAceHand : Hand := splitCurrent kingsTopDeck kingsTopDeck pairOfAces

/-- Witness for C10: splitting (A, A) where the draw is a king makes the
first resulting hand a flagged blackjack worth 21 that pays 250 on a
100-chip bet against a dealer 19. -/
theorem split_twentyone_is_blackjack_witness :
    [pairOfAces].get? 0 = some pairOfAces ∧
    (splitAction kingsTopDeck 900 [pairOfAces] 0 kingsTopDeck).2.1.get? 0
      = some splitAceHand ∧
    splitAceHand.get_value = 21 ∧ splitAceHand.bet = 100 ∧
    splitAceHand.is_blackjack = true ∧
    dealerNineteen.is_blackjack = false ∧
    payout dealerNineteen splitAceHand = 250 := by
  have hmain := split_twentyone_is_blackjack kingsTopDeck kingsTopDeck 900
    [pairOfAces] 0 pairOfAces (by decide) (by decide) (by decide)
    (by decide) (by decide) splitAceHand (Or.inl (by decide)) (by decide)
  refine ⟨by decide, by decide, by decide, by decide, hmain.1, by decide, ?_⟩
  rw [hmain.2 dealerNineteen (by decide)]
  decide

/-- The per-table session state of `src/app.py` that the round lifecycle
touches: shoe, dealer hand (`None` between rounds), per-player hand lists
in seat order, bankrolls, the phase flags, and the turn pointer. -/
structure RoundState where
  fresh : List Card
  deck : List Card
  dealer_hand : Option Hand
  player_hands : List (String × List Hand)
  bankrolls : String → Int
  betting_phase : Bool
  round_active : Bool
  dealer_turn : Bool
  round_over : Bool
  payouts_applied : Bool
  current_player_idx : Nat
  current_hand_idx : Nat

/-- `bankrolls[name] += amt`, leaving every other entry unchanged. -/
def bumpBankroll (bk : String → Int) (name : String) (amt : Int) :
    String → Int :=
  fun n => if n = name then bk n + amt else bk n

/-- The double loop of `apply_payouts` (lines 204-222): for every player,
for every hand, credit that hand's payout to the player's bankroll. -/
def payoutsFold (dealer : Hand) (phs : List (String × List Hand))
    (bk : String → Int) : String → Int :=
  phs.foldl
    (fun b nh =>
      nh.2.foldl (fun b2 hd => bumpBankroll b2 nh.1 (payout dealer hd)) b)
    bk

/-- `apply_payouts` of `src/app.py` (lines 191-224): credit every hand's
payout against the settled dealer hand and raise `payouts_applied`. -/
def applyPayouts (dealer : Hand) (s : RoundState) : RoundState :=
  { s with
    bankrolls := payoutsFold dealer s.player_hands s.bankrolls,
    payouts_applied := true }

/-- The Reveal Dealer handler of `src/app.py` (lines 979-990): set
`dealer_turn`, run the dealer draw loop, apply payouts unless already
applied, and mark the round over.  The handler is reachable only while a
round is active, when `dealer_hand` is present; the `none` branch is
modelled as the identity. -/
def revealDealer (s : RoundState) : RoundState :=
  match s.dealer_hand with
  | none => s
  | some dh =>
      let s1 := { s with
        dealer_turn := true,
        dealer_hand := some (dealerLoop s.fresh dh s.deck).1,
        deck := (dealerLoop s.fresh dh s.deck).2 }
      let s2 := if s1.payouts_applied then s1
        else applyPayouts (dealerLoop s.fresh dh s.deck).1 s1
      { s2 with round_over := true }

theorem revealDealer_of_none (s : RoundState) (h : s.dealer_hand = none) :
    revealDealer s = s := by
  unfold revealDealer
  rw [h]

theorem revealDealer_payouts_applied (s : RoundState) (dh : Hand)
    (h : s.dealer_hand = some dh) :
    (revealDealer s).payouts_applied = true := by
  unfold revealDealer
  rw [h]
  by_cases hpa : s.payouts_applied = true <;>
    simp [hpa, applyPayouts]

theorem revealDealer_dealer_hand (s : RoundState) (dh : Hand)
    (h : s.dealer_hand = some dh) :
    (revealDealer s).dealer_hand = some (dealerLoop s.fresh dh s.deck).1 := by
  unfold revealDealer
  rw [h]
  by_cases hpa : s.payouts_applied = true <;>
    simp [hpa, applyPayouts]

theorem revealDealer_bankrolls_of_applied (s : RoundState)
    (hpa : s.payouts_applied = true) :
    (revealDealer s).bankrolls = s.bankrolls := by
  match hdh : s.dealer_hand with
  | none => rw [revealDealer_of_none s hdh]
  | some dh =>
      unfold revealDealer
      rw [hdh]
      simp [hpa]

/-- C6.  Settlement touches bankrolls exactly once per round: re-invoking
the reveal-and-resolve operation on a round that has already been
resolved leaves every player's bankroll exactly as the first resolution
left it (the `payouts_applied` flag blocks a second credit). -/
theorem reveal_resolve_idempotent_on_bankrolls (s : RoundState) :
    (revealDealer (revealDealer s)).bankrolls = (revealDealer s).bankrolls := by
  match hdh : s.dealer_hand with
  | none => rw [revealDealer_of_none s hdh, revealDealer_of_none s hdh]
  | some dh =>
      exact revealDealer_bankrolls_of_applied (revealDealer s)
        (revealDealer_payouts_applied s dh hdh)

/-- A concrete settled-round state: one player holding the natural hand,
payouts already applied, dealer hand present. -/
def settledState : RoundState :=
  { fresh := threesDeck, deck := threesDeck,
    dealer_hand := some dealerNineteen,
    player_hands := [(("Alice" : String), [naturalHand])],
    bankrolls := fun _ => 1150,
    betting_phase := false, round_active := true, dealer_turn := true,
    round_over := true, payouts_applied := true,
    current_player_idx := 1, current_hand_idx := 2 }

/-- Witness for C6: instantiating the idempotence statement on the
concrete settled state. -/
theorem reveal_resolve_idempotent_on_bankrolls_witness :
    (revealDealer (revealDealer settledState)).bankrolls =
      (revealDealer settledState).bankrolls :=
  reveal_resolve_idempotent_on_bankrolls settledState

/-- The Next Round handlers of `src/app.py` (lines 1217-1240 and
1242-1255): both reset the five phase flags and clear the dealer hand and
player hands; the save variant differs only in writing a snapshot to the
external store first, which touches no in-memory state.  Neither handler
writes `current_player_idx` or `current_hand_idx`. -/
def nextRound (s : RoundState) : RoundState :=
  { s with
    betting_phase := true, round_active := false, round_over := false,
    dealer_turn := false, payouts_applied := false,
    dealer_hand := none, player_hands := [] }

/-- Counterexample to C7 as stated: from the concrete settled state with
turn pointer (1, 2), the next-round transition does NOT reset the pointer
to (0, 0) — the source resets it only in the Deal Cards handler (lines
744-745), at the next Betting → Playing transition. -/
theorem nextRound_pointer_not_reset :
    ¬ ((nextRound settledState).current_player_idx = 0 ∧
       (nextRound settledState).current_hand_idx = 0) := by
  decide

/-- C7 (amended).  The next-round transition clears the dealer hand and
all player hands, resets the round/done flags (betting_phase raised,
round_active, round_over, dealer_turn, payouts_applied lowered), leaves
every player's bankroll unchanged, and leaves the turn pointer unchanged
(it is reset to (0, 0) only by the next deal). -/
theorem nextRound_effect (s : RoundState) :
    (nextRound s).dealer_hand = none ∧
    (nextRound s).player_hands = [] ∧
    (nextRound s).betting_phase = true ∧
    (nextRound s).round_active = false ∧
    (nextRound s).round_over = false ∧
    (nextRound s).dealer_turn = false ∧
    (nextRound s).payouts_applied = false ∧
    (nextRound s).bankrolls = s.bankrolls ∧
    (nextRound s).current_player_idx = s.current_player_idx ∧
    (nextRound s).current_hand_idx = s.current_hand_idx :=
  ⟨rfl, rfl, rfl, rfl, rfl, rfl, rfl, rfl, rfl, rfl⟩

/-- Witness for C7 (amended), instantiated on the concrete settled
state: the pointer survives as (1, 2) while hands and flags clear. -/
theorem nextRound_effect_witness :
    (nextRound settledState).dealer_hand = none ∧
    (nextRound settledState).player_hands = [] ∧
    (nextRound settledState).bankrolls = settledState.bankrolls ∧
    (nextRound settledState).current_player_idx = 1 ∧
    (nextRound settledState).current_hand_idx = 2 :=
  ⟨(nextRound_effect settledState).1, (nextRound_effect settledState).2.1,
   (nextRound_effect settledState).2.2.2.2.2.2.2.1,
   (nextRound_effect settledState).2.2.2.2.2.2.2.2.1,
   (nextRound_effect settledState).2.2.2.2.2.2.2.2.2⟩

/-- One sweep of the inner loop of the Deal Cards handler of `src/app.py`
(lines 732-737): deal one card to each participating hand in seat
order. -/
def dealToEach (fresh : List Card) : List Hand → List Card →
    List Hand × List Card
  | [], deck => ([], deck)
  | h :: t, deck =>
      ((h.add_card (dealCard fresh deck).1) ::
        (dealToEach fresh t (dealCard fresh deck).2).1,
       (dealToEach fresh t (dealCard fresh deck).2).2)

theorem dealToEach_get (fresh : List Card) (hands : List Hand)
    (deck : List Card) (i : Nat) :
    (dealToEach fresh hands deck).1.get? i =
      (hands.get? i).map (fun h => h.add_card (drawSeq fresh deck i)) := by
  induction hands generalizing deck i with
  | nil => simp [dealToEach]
  | cons h t ih =>
      cases i with
      | zero => rfl
      | succ i =>
          show (dealToEach fresh t (dealCard fresh deck).2).1.get? i = _
          rw [ih (dealCard fresh deck).2 i]
          rfl

theorem dealToEach_deck (fresh : List Card) (hands : List Hand)
    (deck : List Card) :
    (dealToEach fresh hands deck).2 = deckAfter fresh deck hands.length := by
  induction hands generalizing deck with
  | nil => rfl
  | cons h t ih =>
      show (dealToEach fresh t (dealCard fresh deck).2).2 = _
      rw [ih (dealCard fresh deck).2]
      rfl

theorem dealToEach_length (fresh : List Card) (hands : List Hand)
    (deck : List Card) :
    (dealToEach fresh hands deck).1.length = hands.length := by
  induction hands generalizing deck with
  | nil => rfl
  | cons h t ih =>
      show ((dealToEach fresh t (dealCard fresh deck).2).1.length) + 1 = _
      rw [ih (dealCard fresh deck).2]
      rfl

/-- One iteration of `for _ in range(2)` in the Deal Cards handler: one
card to every participating hand in order, then one to the dealer. -/
def dealPass (fresh : List Card) (hands : List Hand) (dealer : Hand)
    (deck : List Card) : List Hand × Hand × List Card :=
  ((dealToEach fresh hands deck).1,
   dealer.add_card (dealCard fresh (dealToEach fresh hands deck).2).1,
   (dealCard fresh (dealToEach fresh hands deck).2).2)

/-- The Deal Cards handler's dealing loop of `src/app.py` (lines
731-737): two passes, each giving one card to every participating hand
and then one to the dealer. -/
def dealRound (fresh : List Card) (hands : List Hand) (dealer : Hand)
    (deck : List Card) : List Hand × Hand × List Card :=
  dealPass fresh
    (dealPass fresh hands dealer deck).1
    (dealPass fresh hands dealer deck).2.1
    (dealPass fresh hands dealer deck).2.2

theorem dealPass_get (fresh : List Card) (hands : List Hand) (dealer : Hand)
    (deck : List Card) (i : Nat) :
    (dealPass fresh hands dealer deck).1.get? i =
      (hands.get? i).map (fun h => h.add_card (drawSeq fresh deck i)) :=
  dealToEach_get fresh hands deck i

theorem dealPass_dealer (fresh : List Card) (hands : List Hand)
    (dealer : Hand) (deck : List Card) :
    (dealPass fresh hands dealer deck).2.1 =
      dealer.add_card (drawSeq fresh deck hands.length) := by
  show dealer.add_card (dealCard fresh (dealToEach fresh hands deck).2).1 = _
  rw [dealToEach_deck, ← drawSeq_eq_deal_deckAfter]

theorem dealPass_deck (fresh : List Card) (hands : List Hand)
    (dealer : Hand) (deck : List Card) :
    (dealPass fresh hands dealer deck).2.2 =
      deckAfter fresh deck (hands.length + 1) := by
  show (dealCard fresh (dealToEach fresh hands deck).2).2 = _
  rw [dealToEach_deck, ← deckAfter_succ_comm]

theorem dealPass_length (fresh : List Card) (hands : List Hand)
    (dealer : Hand) (deck : List Card) :
    (dealPass fresh hands dealer deck).1.length = hands.length :=
  dealToEach_length fresh hands deck

/-- C9.  The initial deal for N participating hands draws exactly 2N + 2
cards — the shoe shrinks by exactly 2N + 2 when it holds at least 15
cards before each draw — and is interleaved: hand i receives the i-th and
(N + 1 + i)-th dealt cards, the dealer the N-th and (2N + 1)-th. -/
theorem deal_round_interleaved (fresh deck : List Card) (hands : List Hand)
    (dealer : Hand) (hlen : 2 * hands.length + 16 ≤ deck.length) :
    (dealRound fresh hands dealer deck).2.2 =
      deckAfter fresh deck (2 * hands.length + 2) ∧
    (dealRound fresh hands dealer deck).2.2.length =
      deck.length - (2 * hands.length + 2) ∧
    (∀ i, (dealRound fresh hands dealer deck).1.get? i =
      (hands.get? i).map (fun h =>
        (h.add_card (drawSeq fresh deck i)).add_card
          (drawSeq fresh deck (hands.length + 1 + i)))) ∧
    (dealRound fresh hands dealer deck).2.1 =
      (dealer.add_card (drawSeq fresh deck hands.length)).add_card
        (drawSeq fresh deck (2 * hands.length + 1)) := by
  have hdeck1 : (dealPass fresh hands dealer deck).2.2 =
      deckAfter fresh deck (hands.length + 1) :=
    dealPass_deck fresh hands dealer deck
  have hfinaldeck : (dealRound fresh hands dealer deck).2.2 =
      deckAfter fresh deck (2 * hands.length + 2) := by
    show (dealPass fresh _ _ _).2.2 = _
    rw [dealPass_deck, dealPass_length, hdeck1, deckAfter_add]
    congr 1
    omega
  refine ⟨hfinaldeck, ?_, ?_, ?_⟩
  · rw [hfinaldeck, deckAfter_length fresh deck _ (by omega)]
  · intro i
    show (dealPass fresh _ _ _).1.get? i = _
    rw [dealPass_get, dealPass_get, hdeck1, drawSeq_deckAfter]
    cases hands.get? i <;> rfl
  · show (dealPass fresh _ _ _).2.1 = _
    rw [dealPass_dealer, dealPass_length, dealPass_dealer, hdeck1,
      drawSeq_deckAfter]
    congr 2
    omega

/-- Two fresh one-hand players for the deal witness. -/
def twoFreshHands : List Hand := [Hand.new, Hand.new]

/-- A 20-card shoe for the deal witness. -/
def twentyDeck : List Card := List.replicate 20 ((Rank.four, Suit.hearts) : Card)

/-- Witness for C9: dealing to two hands and the dealer from a 20-card
shoe leaves 14 cards, and the dealt positions are interleaved as
stated. -/
theorem deal_round_interleaved_witness :
    2 * twoFreshHands.length + 16 ≤ twentyDeck.length ∧
    (dealRound twentyDeck twoFreshHands Hand.new twentyDeck).2.2.length = 14 ∧
    (dealRound twentyDeck twoFreshHands Hand.new twentyDeck).1.get? 0 =
      (twoFreshHands.get? 0).map (fun h =>
        (h.add_card (drawSeq twentyDeck twentyDeck 0)).add_card
          (drawSeq twentyDeck twentyDeck 3)) ∧
    (dealRound twentyDeck twoFreshHands Hand.new twentyDeck).2.1 =
      (Hand.new.add_card (drawSeq twentyDeck twentyDeck 2)).add_card
        (drawSeq twentyDeck twentyDeck 5) := by
  have h := deal_round_interleaved twentyDeck twentyDeck twoFreshHands
    Hand.new (by decide)
  exact ⟨by decide, h.2.1, h.2.2.1 0, h.2.2.2⟩

end Blackjack
